import Mathlib

/-!
Shallow embedding of the audio-to-text backend's core logic.

Strings from the TypeScript source are modelled as `List Char` (sequences of
Unicode scalar values; all characters relevant to the thresholds and examples
below lie in the Basic Multilingual Plane, where JavaScript's UTF-16
`String.length` agrees with the number of scalar values).  JavaScript numbers
that hold times, balances and durations are modelled as `ℚ`.
-/

/-- JS regex `[a-zA-Z0-9]` (`smartJoinText` in supadata.service.ts). -/
def isAlnum (c : Char) : Bool :=
  (0x30 ≤ c.toNat && c.toNat ≤ 0x39) ||
  (0x41 ≤ c.toNat && c.toNat ≤ 0x5a) ||
  (0x61 ≤ c.toNat && c.toNat ≤ 0x7a)

/-- The character class of the Chinese-space cleanup regex in
`cleanChineseSpaces`: `[一-龥，。！？、：；""''（）【】]` (CJK unified
ideographs plus full-width punctuation and curly quotes). -/
def isChineseSetChar (c : Char) : Bool :=
  (0x4e00 ≤ c.toNat && c.toNat ≤ 0x9fa5) ||
  c.toNat ∈ [0xff0c, 0x3002, 0xff01, 0xff1f, 0x3001, 0xff1a, 0xff1b,
              0x201c, 0x201d, 0x2018, 0x2019, 0xff08, 0xff09, 0x3010, 0x3011]

/-- JS regex `\s` (the whitespace class used by the cleanup regex). -/
def isJsWs (c : Char) : Bool :=
  (0x9 ≤ c.toNat && c.toNat ≤ 0xd) ||
  c.toNat ∈ [0x20, 0xa0, 0x1680, 0x2028, 0x2029, 0x202f, 0x205f, 0x3000, 0xfeff] ||
  (0x2000 ≤ c.toNat && c.toNat ≤ 0x200a)

/-- A transcript segment (`{start, end, text, speaker}` in the TS source).
`stop` models the `end` field (`end` is a Lean keyword). -/
structure Seg where
  start : ℚ
  stop : ℚ
  text : List Char
  speaker : Option String
deriving DecidableEq, Repr

/-- Model of `SupadataService.smartJoinText`: empty sides pass through; a single space
is inserted exactly when the left tail character and the right head character
are both alphanumeric; otherwise direct concatenation. -/
def smartJoinText (left right : List Char) : List Char :=
  match left, right with
  | [], _ => right
  | _, [] => left
  | a :: l, b :: r =>
    if isAlnum ((a :: l).getLastD ' ') && isAlnum b then
      (a :: l) ++ ' ' :: b :: r
    else (a :: l) ++ b :: r

/-- JS regex `/[。！？.!?]$/` (`sentenceEndPattern` in `mergeSegments`). -/
def endsWithSentencePunct (t : List Char) : Bool :=
  match t.getLast? with
  | some c => c ∈ ['。', '！', '？', '.', '!', '?']
  | none => false

/-- The break condition of `mergeSegments` (default parameters
`maxGapSeconds = 1.5`, `maxLengthChars = 200`): speaker change, sentence-final
punctuation, concatenated length over 200, or gap over 1.5 s. -/
def splitCond (cur s : Seg) : Bool :=
  decide (cur.speaker ≠ s.speaker) ||
  endsWithSentencePunct cur.text ||
  decide (cur.text.length + s.text.length > 200) ||
  decide (s.start - cur.stop > (3 : ℚ) / 2)

/-- Merging a chunk into the current segment (`current.end = seg.end;
current.text = smartJoinText(...)`). -/
def extendSeg (cur s : Seg) : Seg :=
  { cur with stop := s.stop, text := smartJoinText cur.text s.text }

/-- Is the head of the list a Chinese-set character? -/
def chineseHead (l : List Char) : Bool :=
  match l.head? with
  | some c => isChineseSetChar c
  | none => false

/-- One global pass of the JS replace
`text.replace(/([C])\s+([C])/g, '$1$2')` where `C` is the Chinese set:
scanning left to right, a match needs a Chinese-set character, at least one
whitespace character, then a Chinese-set character (the `\s+` run is maximal
because no whitespace character is in `C`); the match is replaced by the two
Chinese-set characters and scanning resumes after the match. -/
def replPassF : ℕ → List Char → List Char
  | 0, l => l
  | _ + 1, [] => []
  | n + 1, c :: rest =>
    if isChineseSetChar c && !(rest.takeWhile isJsWs).isEmpty
        && chineseHead (rest.dropWhile isJsWs) then
      match rest.dropWhile isJsWs with
      | c2 :: tail => c :: c2 :: replPassF n tail
      | [] => c :: rest
    else
      c :: replPassF n rest

/-- The replace pass with exactly adequate fuel.  Every recursive step of
`replPassF` strictly shortens the list, so the fuel never runs out
(`replPassF_irrel` below shows the result does not depend on the fuel once the
fuel covers the length). -/
def replPass (l : List Char) : List Char := replPassF l.length l

/-- Bounded iteration of `replPass`.  Each non-fixpoint application strictly
shortens the list, so `t.length + 1` rounds always reach the fixpoint; the
theorem `cleanChineseSpaces_fix` below certifies this, making the definition
extensionally equal to the source's `while (result !== prev)` loop. -/
def cleanIter : ℕ → List Char → List Char
  | 0, t => t
  | n + 1, t =>
    let r := replPass t
    if r = t then t else cleanIter n r

/-- Model of `SupadataService.cleanChineseSpaces`: iterate the replace until a fixed
point. -/
def cleanChineseSpaces (t : List Char) : List Char :=
  cleanIter (t.length + 1) t

/-- The scanning loop of `SupadataService.mergeSegments` with current segment
`cur`: split when `splitCond`, otherwise extend; the final segment (and only
it) gets `cleanChineseSpaces` before being pushed. -/
def mergeAux (cur : Seg) : List Seg → List Seg
  | [] => [{ cur with text := cleanChineseSpaces cur.text }]
  | s :: rest =>
    if splitCond cur s then cur :: mergeAux s rest
    else mergeAux (extendSeg cur s) rest

/-- Model of `SupadataService.mergeSegments` with the default options. -/
def mergeSegments : List Seg → List Seg
  | [] => []
  | s :: rest => mergeAux s rest

/-! Spec-side definitions for claim C4, written from the claim's words and to
be compared with the source-derived `mergeSegments` above. -/

/-- Claim C4's smart join: a single space iff both the left tail character and
the right head character match `[A-Za-z0-9]`, else direct concatenation. -/
def smartJoinSpec (l r : List Char) : List Char :=
  if (match l.getLast?, r.head? with
      | some a, some b => isAlnum a && isAlnum b
      | _, _ => false) then
    l ++ ' ' :: r
  else l ++ r

/-- Claim C4's four break conditions: the speaker changes, the current text
ends with a character of `{。！？.!?}`, the joined text length would exceed
200 characters, or `next.start - current.end > 1.5` seconds. -/
def startsNewSpec (cur s : Seg) : Bool :=
  decide (cur.speaker ≠ s.speaker) ||
  (match cur.text.getLast? with
   | some c => c ∈ ['。', '！', '？', '.', '!', '?']
   | none => false) ||
  decide ((cur.text ++ s.text).length > 200) ||
  decide (s.start - cur.stop > (3 : ℚ) / 2)

/-- The scan described by claim C4 (no cleanup anywhere). -/
def mergeSpecAux (cur : Seg) : List Seg → List Seg
  | [] => [cur]
  | s :: rest =>
    if startsNewSpec cur s then cur :: mergeSpecAux s rest
    else mergeSpecAux { cur with stop := s.stop, text := smartJoinSpec cur.text s.text } rest

/-- Claim C4's merge: scan left to right from the first chunk. -/
def mergeSpec : List Seg → List Seg
  | [] => []
  | s :: rest => mergeSpecAux s rest

/-- Apply `cleanChineseSpaces` to the text of the last segment only. -/
def cleanLast : List Seg → List Seg
  | [] => []
  | [s] => [{ s with text := cleanChineseSpaces s.text }]
  | s :: rest => s :: cleanLast rest

/-! ## Subtitle formatting (`TranscriptsService.generateSRT` / `formatSRTTime`) -/

/-- JS truncation toward zero, as performed by the `%` operator on numbers. -/
def jsTrunc (q : ℚ) : ℤ :=
  if 0 ≤ q then ⌊q⌋ else -⌊-q⌋

/-- The JS remainder `a % b` (truncated division remainder). -/
def jsMod (a b : ℚ) : ℚ :=
  a - b * (jsTrunc (a / b) : ℚ)

/-- Model of `String(x).padStart(n, '0')`. -/
def padZero (n : ℕ) (s : String) : String :=
  if n ≤ s.length then s else ⟨List.replicate (n - s.length) '0' ++ s.data⟩

/-- Model of `TranscriptsService.formatSRTTime`: `HH:MM:SS,mmm` using `Math.floor` and
the JS `%` operator. -/
def formatSRTTime (seconds : ℚ) : String :=
  padZero 2 (toString ⌊seconds / 3600⌋) ++ ":" ++
  padZero 2 (toString ⌊jsMod seconds 3600 / 60⌋) ++ ":" ++
  padZero 2 (toString ⌊jsMod seconds 60⌋) ++ "," ++
  padZero 3 (toString ⌊jsMod seconds 1 * 1000⌋)

/-- One SRT block: `${i + 1}\n${startTime} --> ${endTime}\n${seg.text}\n`. -/
def srtBlock (i : ℕ) (seg : Seg) : String :=
  toString (i + 1) ++ "\n" ++ formatSRTTime seg.start ++ " --> " ++
  formatSRTTime seg.stop ++ "\n" ++ ⟨seg.text⟩ ++ "\n"

/-- Model of `TranscriptsService.generateSRT`: blocks joined with `'\n'` (each block
already ends in a newline, giving a blank line between blocks). -/
def generateSRT (segs : List Seg) : String :=
  String.intercalate "\n" (segs.mapIdx srtBlock)

/-- Claim C7's time stamp, written from the claim's words: `HH:MM:SS,mmm`
with `mmm = floor((seconds % 1) * 1000)` and the standard sexagesimal
decomposition of the whole seconds. -/
def srtTimeSpec (seconds : ℚ) : String :=
  padZero 2 (toString ⌊seconds / 3600⌋) ++ ":" ++
  padZero 2 (toString ⌊jsMod seconds 3600 / 60⌋) ++ ":" ++
  padZero 2 (toString ⌊jsMod seconds 60⌋) ++ "," ++
  padZero 3 (toString ⌊jsMod seconds 1 * 1000⌋)

/-- Claim C7's block: index, newline, time range, newline, text, newline,
with 1-based indices. -/
def srtBlockSpec (i : ℕ) (seg : Seg) : String :=
  toString (i + 1) ++ "\n" ++ srtTimeSpec seg.start ++ " --> " ++
  srtTimeSpec seg.stop ++ "\n" ++ ⟨seg.text⟩ ++ "\n"

/-! ## Billing (`BillingService.deductBalance` over the `balances` table) -/

/-- The `balances` table: `(user_id, minutes_balance)` rows (`user_id` is the
primary key, so well-formed tables have pairwise distinct first components). -/
abbrev BalanceTable := List (String × ℚ)

/-- Model of `getBalance`: `select ... eq('user_id', userId) ... single()`. -/
def lookupBalance (userId : String) (bs : BalanceTable) : Option ℚ :=
  (bs.find? fun p => p.1 == userId).map Prod.snd

/-- The atomic conditional update issued by `deductBalance`:
`update({minutes_balance: bal - m}).eq('user_id', userId).gte('minutes_balance', m)`.
This is the only write of a deduction; it is the linearization point under
concurrency. -/
def condDeductUpdate (userId : String) (m : ℚ) (bs : BalanceTable) : BalanceTable :=
  bs.map fun p => if p.1 = userId ∧ m ≤ p.2 then (p.1, p.2 - m) else p

/-- Number of rows the conditional update affects. -/
def condDeductAffected (userId : String) (m : ℚ) (bs : BalanceTable) : ℕ :=
  (bs.filter fun p => p.1 == userId && decide (m ≤ p.2)).length

/-- Model of `BillingService.deductBalance`: read the balance (missing row fails);
fail without mutation when the balance is below `m`; otherwise issue the
conditional update, succeeding iff exactly one row was updated
(`.select().single()`). -/
def deductBalance (userId : String) (m : ℚ) (bs : BalanceTable) : Bool × BalanceTable :=
  match lookupBalance userId bs with
  | none => (false, bs)
  | some bal =>
    if bal < m then (false, bs)
    else (decide (condDeductAffected userId m bs = 1), condDeductUpdate userId m bs)

/-- The table after an arbitrary sequence of atomic conditional updates (the
writes of any interleaving of concurrent `deduct` calls). -/
def condDeductMany (ops : List (String × ℚ)) (bs : BalanceTable) : BalanceTable :=
  ops.foldl (fun s op => condDeductUpdate op.1 op.2 s) bs

/-! ## Task rows and the executor (`TaskProcessorService`, part_014) -/

/-- Model of `task_status` enum. -/
inductive TaskStatus
  | pending
  | processing
  | succeeded
  | failed
deriving DecidableEq, Repr

/-- Model of `source_type` enum. -/
inductive SourceType
  | upload
  | url
  | youtube
deriving DecidableEq, Repr

/-- A row of the `tasks` table (the fields the modelled operations touch). -/
structure TaskRow where
  id : String
  userId : Option String
  anonId : Option String
  isTrial : Bool
  status : TaskStatus
  durationSec : Option ℚ
  costMinutes : Option ℚ
  error : Option String
  updatedAt : ℚ
deriving DecidableEq, Repr

/-- The effect of `updateTaskStatus` on a matched row: overwrite `status`,
any provided update fields, and `updated_at`. -/
def applyStatusUpdate (now : ℚ) (st : TaskStatus) (dur cost : Option ℚ)
    (err : Option String) (r : TaskRow) : TaskRow :=
  { r with
    status := st
    durationSec := match dur with | some d => some d | none => r.durationSec
    costMinutes := match cost with | some c => some c | none => r.costMinutes
    error := match err with | some e => some e | none => r.error
    updatedAt := now }

/-- Model of `TaskProcessorService.updateTaskStatus`: an unconditional update matched
only on `eq('id', taskId)` — there is no `status` guard of any kind. -/
def updateTaskStatus (now : ℚ) (taskId : String) (st : TaskStatus)
    (dur cost : Option ℚ) (err : Option String) (rows : List TaskRow) : List TaskRow :=
  rows.map fun r => if r.id = taskId then applyStatusUpdate now st dur cost err r else r

/-! ## Supadata adapter (`SupadataService.parseResponse` / `pollJob`) -/

/-- A caption chunk of the Supadata wire format (`{text, offset, duration}`,
times in milliseconds). -/
structure SupaChunk where
  text : List Char
  offset : ℚ
  duration : ℚ
deriving DecidableEq, Repr

/-- Model of `content` is either a plain string or a chunk array. -/
inductive SupaContent
  | str (s : List Char)
  | chunks (cs : List SupaChunk)
deriving DecidableEq, Repr

/-- A (200-class) Supadata response body. -/
structure SupaResponse where
  content : SupaContent
  lang : Option String
deriving DecidableEq, Repr

/-- JS `String.prototype.trim`. -/
def jsTrim (t : List Char) : List Char :=
  ((t.dropWhile isJsWs).reverse.dropWhile isJsWs).reverse

/-- Model of `data.lang || 'unknown'` (both a missing and an empty `lang` are falsy). -/
def langOrUnknown (l : Option String) : String :=
  match l with
  | some s => if s = "" then "unknown" else s
  | none => "unknown"

/-- The uniform transcript result (`TranscriptResult` in the TS source). -/
structure TranscriptResult where
  segments : List Seg
  duration : ℚ
  language : String
  isGenerated : Bool
deriving DecidableEq, Repr

/-- Model of `SupadataService.parseResponse`.  String content yields a single
`{start: 0, end: 0, speaker: null}` segment carrying the raw string and
duration 0.  Chunk content is mapped to seconds-based segments with trimmed
text, merged with the LLM when `isGenerated` and an LLM is available
(`llmMerge = some f`), else with `mergeSegments`; the duration is the last
merged segment's end (0 when there are no segments). -/
def parseResponse (data : SupaResponse) (isGenerated : Bool)
    (llmMerge : Option (List Seg → List Seg)) : TranscriptResult :=
  match data.content with
  | .str s =>
    { segments := [{ start := 0, stop := 0, text := s, speaker := none }]
      duration := 0
      language := langOrUnknown data.lang
      isGenerated := isGenerated }
  | .chunks cs =>
    let rawSegments : List Seg := cs.map fun chunk =>
      { start := chunk.offset / 1000
        stop := (chunk.offset + chunk.duration) / 1000
        text := jsTrim chunk.text
        speaker := none }
    let segments :=
      match llmMerge with
      | some f => if isGenerated then f rawSegments else mergeSegments rawSegments
      | none => mergeSegments rawSegments
    { segments := segments
      duration := (segments.getLast?).elim 0 Seg.stop
      language := langOrUnknown data.lang
      isGenerated := isGenerated }

/-- One polled response: HTTP success flag and error text, plus the decoded
body's `status` and `content` fields. -/
structure PollResp where
  ok : Bool
  errorText : String
  status : Option String
  content : Option SupaContent
  lang : Option String

/-- A poll response that keeps the loop of `pollJob` going: HTTP-successful
and either still `status: "active"` or without a `content` field. -/
def pollSkips (f : ℕ → PollResp) (k : ℕ) : Prop :=
  (f k).ok = true ∧ ((f k).status = some "active" ∨ (f k).content = none)

/-- Model of `maxAttempts` default of `pollJob`. -/
def supadataMaxPollAttempts : ℕ := 120

/-- Model of `intervalMs` default of `pollJob` (one sleep of this length precedes each
poll attempt). -/
def supadataPollIntervalMs : ℕ := 5000

/-- The timeout error message thrown after the final attempt. -/
def mkTimeoutMsg (jobId : String) (maxAttempts : ℕ) : String :=
  "Supadata job " ++ jobId ++ " timeout after " ++ toString maxAttempts ++ " attempts"

/-- The polling loop of `SupadataService.pollJob` over the stream `f` of
responses (`f k` is the `k`-th poll, 1-based).  First component: the outcome;
second: the number of attempts performed, each preceded by one sleep of
`supadataPollIntervalMs`.  A non-2xx response throws; `status: "active"`
continues; a present `content` field is terminal and is parsed; any other
body is skipped; exhausting `maxAttempts` throws the timeout error. -/
def pollGo (jobId : String) (f : ℕ → PollResp) (isGen : Bool)
    (llm : Option (List Seg → List Seg)) :
    ℕ → ℕ → Except String TranscriptResult × ℕ
  | 0, n => (.error (mkTimeoutMsg jobId supadataMaxPollAttempts), n)
  | r + 1, n =>
    if (f (n + 1)).ok = false then
      (.error ("Supadata job failed: " ++ (f (n + 1)).errorText), n + 1)
    else if (f (n + 1)).status = some "active" then
      pollGo jobId f isGen llm r (n + 1)
    else
      match (f (n + 1)).content with
      | some c =>
        (.ok (parseResponse { content := c, lang := (f (n + 1)).lang } isGen llm), n + 1)
      | none => pollGo jobId f isGen llm r (n + 1)

/-- Model of `SupadataService.pollJob` with the default attempt budget. -/
def pollJob (jobId : String) (f : ℕ → PollResp) (isGen : Bool)
    (llm : Option (List Seg → List Seg)) : Except String TranscriptResult × ℕ :=
  pollGo jobId f isGen llm supadataMaxPollAttempts 0

/-! ## The task executor (`TaskProcessorService.processTask`, part_014) -/

/-- The job payload fields `processTask` consumes. -/
structure TaskJobData where
  taskId : String
  sourceType : SourceType
deriving DecidableEq, Repr

/-- The persistent state the executor touches.  `deductCalls` logs every
balance-deduction attempt; `processTask` below contains no operation that
writes it, because the executor's source contains no call to
`BillingService.deductBalance` (the only caller in the repository is the
Deepgram webhook handler). -/
structure ExecState where
  rows : List TaskRow
  transcripts : List String
  trialUsages : List (Option String × Option String)
  deductCalls : List (String × ℚ)
deriving DecidableEq, Repr

/-- The `costMinutes` computation in `processTask`: YouTube sources are free
unless the transcript was AI-generated; other sources always bill
`ceil(duration / 60)`. -/
def taskCost (sourceType : SourceType) (result : TranscriptResult) : ℚ :=
  if sourceType = SourceType.youtube then
    (if result.isGenerated then ((⌈result.duration / 60⌉ : ℤ) : ℚ) else 0)
  else ((⌈result.duration / 60⌉ : ℤ) : ℚ)

/-- Model of `TranscriptsService.saveTranscript`: upsert keyed on `task_id`. -/
def upsertTranscript (taskId : String) (ts : List String) : List String :=
  if taskId ∈ ts then ts else taskId :: ts

/-- Row lookup by id. -/
def findTask (taskId : String) (rows : List TaskRow) : Option TaskRow :=
  rows.find? fun r => r.id == taskId

/-- Model of `TaskProcessorService.recordTrialUsageIfNeeded`: look the task up and
append a trial-usage record when it is a trial task. -/
def recordTrialUsageIfNeeded (taskId : String) (st : ExecState) : ExecState :=
  match findTask taskId st.rows with
  | none => st
  | some task =>
    if task.isTrial then
      { st with trialUsages := (task.userId, task.anonId) :: st.trialUsages }
    else st

/-- Model of `TaskProcessorService.processTask` (the Supadata variant of part_014):
set `processing` unconditionally, obtain the provider result, compute the
cost, upsert the transcript, set `succeeded` with `duration_sec` and
`cost_minutes`, and record trial usage; on a provider error set `failed`
with the error message (and rethrow to the queue).  No step reads or writes
balances. -/
def processTask (now : ℚ) (job : TaskJobData)
    (providerResult : Except String TranscriptResult) (st : ExecState) : ExecState :=
  let st1 := { st with rows := updateTaskStatus now job.taskId TaskStatus.processing none none none st.rows }
  match providerResult with
  | .error e =>
    { st1 with rows := updateTaskStatus now job.taskId TaskStatus.failed none none (some e) st1.rows }
  | .ok result =>
    let cost := taskCost job.sourceType result
    let st2 := { st1 with transcripts := upsertTranscript job.taskId st1.transcripts }
    let st3 := { st2 with rows := (updateTaskStatus now job.taskId TaskStatus.succeeded
                  (some result.duration) (some cost) none st2.rows) }
    recordTrialUsageIfNeeded job.taskId st3

/-! ## Stuck-task sweeper (`TaskCleanupService.cleanupStuckTasks`) -/

/-- Model of `TASK_TIMEOUT_MINUTES`. -/
def taskTimeoutMinutes : ℕ := 10

/-- The timeout threshold in milliseconds. -/
def taskTimeoutMs : ℚ := (taskTimeoutMinutes : ℚ) * 60 * 1000

/-- The error message written to swept tasks. -/
def stuckTimeoutMsg : String :=
  "任务处理超时（超过 " ++ toString taskTimeoutMinutes ++ " 分钟），请重试"

/-- One sweep of `TaskCleanupService.cleanupStuckTasks` at time `now`
(timestamps in epoch milliseconds): select the ids of rows with
`status = processing` and `updated_at` older than the threshold, then
batch-update the rows with those ids to `failed`. -/
def cleanupStuckTasks (now : ℚ) (rows : List TaskRow) : List TaskRow :=
  rows.map fun r =>
    if r.id ∈ ((rows.filter fun q =>
        q.status == TaskStatus.processing &&
        decide (q.updatedAt < now - taskTimeoutMs)).map TaskRow.id) then
      { r with status := TaskStatus.failed, error := some stuckTimeoutMsg, updatedAt := now }
    else r

/-- Claim C9's per-task sweep condition: `status = processing` and
`now - updated_at` exceeds the timeout threshold. -/
def isStuck (now : ℚ) (r : TaskRow) : Prop :=
  r.status = TaskStatus.processing ∧ now - r.updatedAt > taskTimeoutMs

instance (now : ℚ) (r : TaskRow) : Decidable (isStuck now r) := by
  unfold isStuck; infer_instance

/-- Claim C9's per-task sweep action. -/
def sweepOne (now : ℚ) (r : TaskRow) : TaskRow :=
  if isStuck now r then
    { r with status := TaskStatus.failed, error := some stuckTimeoutMsg, updatedAt := now }
  else r

/-! Whitespace-placement invariants used for the merge idempotence analysis. -/

/-- No whitespace characters at all in the text. -/
def wsFree (t : List Char) : Prop := ∀ c ∈ t, isJsWs c = false

/-- Every whitespace character is immediately preceded by a character outside
the Chinese cleanup set (so the cleanup regex has no match). -/
def wsGuarded (t : List Char) : Prop :=
  List.Chain' (fun x y => isJsWs y = true → isChineseSetChar x = false) t

/-- Every segment text of the list is whitespace-free. -/
def wsFreeSegs (S : List Seg) : Prop := ∀ seg ∈ S, wsFree seg.text

instance (t : List Char) : Decidable (wsFree t) := by
  unfold wsFree; infer_instance

instance (S : List Seg) : Decidable (wsFreeSegs S) := by
  unfold wsFreeSegs; infer_instance

theorem wsGuarded_of_wsFree {t : List Char} (h : wsFree t) : wsGuarded t := by
  induction t with
  | nil => exact List.chain'_nil
  | cons c rest ih =>
    have hrest : wsFree rest := fun x hx => h x (List.mem_cons_of_mem _ hx)
    refine List.chain'_cons'.mpr ⟨?_, ih hrest⟩
    intro y hy hws
    have : isJsWs y = false := hrest y (List.mem_of_mem_head? hy)
    simp [this] at hws

theorem not_chinese_of_alnum {c : Char} (h : isAlnum c = true) :
    isChineseSetChar c = false := by
  simp only [isAlnum, Bool.or_eq_true, Bool.and_eq_true, decide_eq_true_eq] at h
  apply Bool.eq_false_iff.mpr
  intro hc
  simp only [isChineseSetChar, Bool.or_eq_true, Bool.and_eq_true, decide_eq_true_eq,
    List.mem_cons, List.not_mem_nil, or_false] at hc
  omega

/-! ## Lemmas about the cleanup pass -/

theorem tail_length_of_dropWhile {rest : List Char} {c2 : Char} {tail : List Char}
    (h : rest.dropWhile isJsWs = c2 :: tail) : tail.length + 1 ≤ rest.length := by
  have h2 : (rest.dropWhile isJsWs).length ≤ rest.length :=
    (List.dropWhile_sublist isJsWs).length_le
  rw [h] at h2
  simpa using h2

theorem replPassF_irrel : ∀ (n : ℕ) (l : List Char) (m : ℕ),
    l.length ≤ n → l.length ≤ m → replPassF n l = replPassF m l := by
  intro n
  induction n with
  | zero =>
    intro l m h0 _
    have hl : l = [] := List.eq_nil_of_length_eq_zero (Nat.le_zero.mp h0)
    subst hl
    cases m with
    | zero => rfl
    | succ m => rfl
  | succ n ih =>
    intro l m hn hm
    cases l with
    | nil =>
      cases m with
      | zero => rfl
      | succ m => rfl
    | cons c rest =>
      simp only [List.length_cons] at hn hm
      cases m with
      | zero => omega
      | succ m2 =>
        simp only [replPassF]
        by_cases hg : (isChineseSetChar c && !(rest.takeWhile isJsWs).isEmpty
            && chineseHead (rest.dropWhile isJsWs)) = true
        · rw [if_pos hg, if_pos hg]
          cases hdrop : rest.dropWhile isJsWs with
          | nil => simp only [hdrop]
          | cons c2 tail =>
            have htl := tail_length_of_dropWhile hdrop
            simp only [hdrop]
            rw [ih tail m2 (by omega) (by omega)]
        · rw [if_neg hg, if_neg hg]
          rw [ih rest m2 (by omega) (by omega)]

theorem replPass_nil : replPass [] = [] := rfl

theorem replPass_cons_pos (c : Char) (rest : List Char) (c2 : Char) (tail : List Char)
    (hg : (isChineseSetChar c && !(rest.takeWhile isJsWs).isEmpty
            && chineseHead (rest.dropWhile isJsWs)) = true)
    (h : rest.dropWhile isJsWs = c2 :: tail) :
    replPass (c :: rest) = c :: c2 :: replPass tail := by
  have htl := tail_length_of_dropWhile h
  show replPassF (c :: rest).length (c :: rest) = _
  simp only [List.length_cons, replPassF]
  rw [if_pos hg]
  simp only [h]
  rw [replPassF_irrel rest.length tail tail.length (by omega) (by omega)]
  rfl

theorem replPass_cons_stuck (c : Char) (rest : List Char)
    (hg : (isChineseSetChar c && !(rest.takeWhile isJsWs).isEmpty
            && chineseHead (rest.dropWhile isJsWs)) = true)
    (h : rest.dropWhile isJsWs = []) :
    replPass (c :: rest) = c :: rest := by
  show replPassF (c :: rest).length (c :: rest) = _
  simp only [List.length_cons, replPassF]
  rw [if_pos hg]
  simp only [h]

theorem replPass_cons_neg (c : Char) (rest : List Char)
    (hg : ¬ (isChineseSetChar c && !(rest.takeWhile isJsWs).isEmpty
              && chineseHead (rest.dropWhile isJsWs)) = true) :
    replPass (c :: rest) = c :: replPass rest := by
  show replPassF (c :: rest).length (c :: rest) = _
  simp only [List.length_cons, replPassF, if_neg hg]
  rfl

theorem replPass_length : ∀ l : List Char,
    (replPass l).length ≤ l.length ∧ ((replPass l).length = l.length → replPass l = l) := by
  suffices H : ∀ (n : ℕ) (l : List Char), l.length ≤ n →
      (replPass l).length ≤ l.length ∧ ((replPass l).length = l.length → replPass l = l) by
    intro l
    exact H l.length l (le_refl _)
  intro n
  induction n with
  | zero =>
    intro l h0
    have hl : l = [] := List.eq_nil_of_length_eq_zero (Nat.le_zero.mp h0)
    subst hl
    simp [replPass_nil]
  | succ n ih =>
    intro l hn
    cases l with
    | nil => simp [replPass_nil]
    | cons c rest =>
      simp only [List.length_cons] at hn
      by_cases hg : (isChineseSetChar c && !(rest.takeWhile isJsWs).isEmpty
          && chineseHead (rest.dropWhile isJsWs)) = true
      · cases hdrop : rest.dropWhile isJsWs with
        | nil =>
          rw [replPass_cons_stuck c rest hg hdrop]
          exact ⟨le_refl _, fun _ => rfl⟩
        | cons c2 tail =>
          have hsplit : rest.takeWhile isJsWs ++ rest.dropWhile isJsWs = rest :=
            rest.takeWhile_append_dropWhile isJsWs
          have hws : 1 ≤ (rest.takeWhile isJsWs).length := by
            simp only [Bool.and_eq_true] at hg
            rcases hg with ⟨⟨-, hne⟩, -⟩
            cases hlen : (rest.takeWhile isJsWs) with
            | nil => rw [hlen] at hne; simp at hne
            | cons a b => simp
          have hrl : rest.length = (rest.takeWhile isJsWs).length + 1 + tail.length := by
            have := congrArg List.length hsplit
            rw [hdrop] at this
            simp only [List.length_append, List.length_cons] at this
            omega
          rw [replPass_cons_pos c rest c2 tail hg hdrop]
          have IH := ih tail (by omega)
          simp only [List.length_cons]
          constructor
          · omega
          · intro hlen
            omega
      · rw [replPass_cons_neg c rest hg]
        have IH := ih rest (by omega)
        simp only [List.length_cons]
        constructor
        · omega
        · intro hlen
          have : (replPass rest).length = rest.length := by omega
          rw [IH.2 this]

theorem replPass_length_le (l : List Char) : (replPass l).length ≤ l.length :=
  (replPass_length l).1

theorem replPass_length_lt {l : List Char} (h : replPass l ≠ l) :
    (replPass l).length < l.length := by
  rcases lt_or_eq_of_le (replPass_length_le l) with hlt | heq
  · exact hlt
  · exact absurd ((replPass_length l).2 heq) h

/-- With fuel exceeding the length, `cleanIter` reaches a `replPass` fixpoint. -/
theorem cleanIter_fix : ∀ (n : ℕ) (t : List Char), t.length < n →
    replPass (cleanIter n t) = cleanIter n t := by
  intro n
  induction n with
  | zero => intro t ht; omega
  | succ n ih =>
    intro t ht
    simp only [cleanIter]
    by_cases h : replPass t = t
    · simp [h]
    · simp only [h, if_false]
      exact ih (replPass t) (by have := replPass_length_lt h; omega)

/-- The modelled `cleanChineseSpaces` is a fixpoint of the replace pass, i.e.
the bounded iteration agrees with the source's unbounded loop. -/
theorem cleanChineseSpaces_fix (t : List Char) :
    replPass (cleanChineseSpaces t) = cleanChineseSpaces t :=
  cleanIter_fix (t.length + 1) t (by omega)

theorem cleanChineseSpaces_of_fix {t : List Char} (h : replPass t = t) :
    cleanChineseSpaces t = t := by
  simp only [cleanChineseSpaces, cleanIter, h, if_true]

/-- The cleanup is idempotent. -/
theorem cleanChineseSpaces_idem (t : List Char) :
    cleanChineseSpaces (cleanChineseSpaces t) = cleanChineseSpaces t :=
  cleanChineseSpaces_of_fix (cleanChineseSpaces_fix t)

/-! ## Whitespace invariants and the cleanup's interaction with merging -/

theorem head_ws_of_takeWhile_ne_nil {rest : List Char}
    (h : ¬ (rest.takeWhile isJsWs).isEmpty = true) :
    ∃ a t, rest = a :: t ∧ isJsWs a = true := by
  cases rest with
  | nil => simp [List.takeWhile] at h
  | cons a t =>
    refine ⟨a, t, rfl, ?_⟩
    by_contra hws
    simp only [List.takeWhile, Bool.not_eq_true] at h hws
    rw [hws] at h
    simp at h

theorem replPass_id_of_wsGuarded : ∀ {t : List Char}, wsGuarded t → replPass t = t := by
  suffices H : ∀ (n : ℕ) (t : List Char), t.length ≤ n → wsGuarded t → replPass t = t by
    intro t
    exact H t.length t (le_refl _)
  intro n
  induction n with
  | zero =>
    intro t h0 _
    have ht : t = [] := List.eq_nil_of_length_eq_zero (Nat.le_zero.mp h0)
    subst ht
    exact replPass_nil
  | succ n ih =>
    intro t hn hq
    cases t with
    | nil => exact replPass_nil
    | cons c rest =>
      simp only [List.length_cons] at hn
      by_cases hg : (isChineseSetChar c && !(rest.takeWhile isJsWs).isEmpty
          && chineseHead (rest.dropWhile isJsWs)) = true
      · exfalso
        simp only [Bool.and_eq_true] at hg
        obtain ⟨⟨hc, hne⟩, -⟩ := hg
        obtain ⟨a, t', hrest, hws⟩ := head_ws_of_takeWhile_ne_nil (by simpa using hne)
        subst hrest
        have hpair := (List.chain'_cons'.mp hq).1 a rfl
        rw [hpair hws] at hc
        cases hc
      · rw [replPass_cons_neg c rest hg]
        rw [ih rest (by omega) (List.Chain'.tail hq)]

theorem cleanChineseSpaces_id_of_wsGuarded {t : List Char} (h : wsGuarded t) :
    cleanChineseSpaces t = t :=
  cleanChineseSpaces_of_fix (replPass_id_of_wsGuarded h)

theorem wsGuarded_smartJoin {l r : List Char} (hl : wsGuarded l) (hr : wsFree r) :
    wsGuarded (smartJoinText l r) := by
  match l, r with
  | [], r => simpa only [smartJoinText] using wsGuarded_of_wsFree hr
  | a :: l', [] => simpa only [smartJoinText] using hl
  | a :: l', b :: r' =>
    simp only [smartJoinText]
    by_cases halnum : (isAlnum ((a :: l').getLastD ' ') && isAlnum b) = true
    · rw [if_pos halnum]
      unfold wsGuarded
      rw [List.chain'_append]
      refine ⟨hl, ?_, ?_⟩
      · refine List.chain'_cons'.mpr ⟨?_, wsGuarded_of_wsFree hr⟩
        intro y hy hws
        exfalso
        have hmem : y ∈ b :: r' := List.mem_of_mem_head? hy
        rw [hr y hmem] at hws
        cases hws
      · intro x hx y hy
        simp only [List.head?_cons, Option.mem_def, Option.some.injEq] at hy
        subst hy
        intro _
        have hx2 : x = (a :: l').getLastD ' ' := by
          rw [List.getLastD_eq_getLast?]
          simp only [Option.mem_def] at hx
          rw [hx]
          rfl
        subst hx2
        exact not_chinese_of_alnum ((Bool.and_eq_true _ _).mp halnum).1
    · rw [if_neg halnum]
      unfold wsGuarded
      rw [List.chain'_append]
      refine ⟨hl, wsGuarded_of_wsFree hr, ?_⟩
      intro x hx y hy hws
      exfalso
      have hmem : y ∈ b :: r' := List.mem_of_mem_head? hy
      rw [hr y hmem] at hws
      cases hws

theorem smartJoin_length_ge_left (l r : List Char) :
    l.length ≤ (smartJoinText l r).length := by
  match l, r with
  | [], r => simp [smartJoinText]
  | a :: l', [] => simp [smartJoinText]
  | a :: l', b :: r' =>
    simp only [smartJoinText]
    by_cases halnum : (isAlnum ((a :: l').getLastD ' ') && isAlnum b) = true
    · rw [if_pos halnum]
      simp
    · rw [if_neg halnum]
      simp

theorem mergeAux_ne_nil : ∀ (rest : List Seg) (cur : Seg), mergeAux cur rest ≠ [] := by
  intro rest
  induction rest with
  | nil => intro cur; simp [mergeAux]
  | cons s rest ih =>
    intro cur
    simp only [mergeAux]
    by_cases h : splitCond cur s = true
    · simp [h]
    · simp only [h, if_false]
      exact ih (extendSeg cur s)

theorem mergeSpecAux_ne_nil : ∀ (rest : List Seg) (cur : Seg), mergeSpecAux cur rest ≠ [] := by
  intro rest
  induction rest with
  | nil => intro cur; simp [mergeSpecAux]
  | cons s rest ih =>
    intro cur
    simp only [mergeSpecAux]
    by_cases h : startsNewSpec cur s = true
    · simp [h]
    · simp only [h, if_false]
      exact ih _

theorem smartJoin_eq_spec (l r : List Char) : smartJoinText l r = smartJoinSpec l r := by
  match l, r with
  | [], r => simp [smartJoinText, smartJoinSpec]
  | a :: l', [] => simp [smartJoinText, smartJoinSpec]
  | a :: l', b :: r' =>
    obtain ⟨lc, hlc⟩ : ∃ lc, (a :: l').getLast? = some lc := by
      cases h : (a :: l').getLast? with
      | none => rw [List.getLast?_eq_none_iff] at h; cases h
      | some lc => exact ⟨lc, rfl⟩
    have hd : (a :: l').getLastD ' ' = lc := by
      rw [List.getLastD_eq_getLast?, hlc]
      rfl
    simp only [smartJoinText, smartJoinSpec, hlc, hd, List.head?_cons]

theorem splitCond_eq_spec (a b : Seg) : splitCond a b = startsNewSpec a b := by
  simp only [splitCond, startsNewSpec, endsWithSentencePunct, List.length_append]

theorem cleanLast_cons_of_ne_nil (s : Seg) {L : List Seg} (h : L ≠ []) :
    cleanLast (s :: L) = s :: cleanLast L := by
  cases L with
  | nil => exact absurd rfl h
  | cons b t => rfl

theorem mergeAux_eq_spec : ∀ (rest : List Seg) (cur : Seg),
    mergeAux cur rest = cleanLast (mergeSpecAux cur rest) := by
  intro rest
  induction rest with
  | nil => intro cur; rfl
  | cons s rest ih =>
    intro cur
    simp only [mergeAux, mergeSpecAux, splitCond_eq_spec]
    by_cases h : startsNewSpec cur s = true
    · rw [if_pos h, if_pos h, ih s,
        cleanLast_cons_of_ne_nil cur (mergeSpecAux_ne_nil rest s)]
    · rw [if_neg h, if_neg h]
      have : extendSeg cur s =
          { cur with stop := s.stop, text := smartJoinSpec cur.text s.text } := by
        simp [extendSeg, smartJoin_eq_spec]
      rw [this]
      exact ih _

/-! ## Saturation of the merge output -/

theorem splitCond_persist {cur s h0 : Seg} (hsp : splitCond cur s = true)
    (h1 : h0.speaker = s.speaker) (h2 : h0.start = s.start)
    (h3 : s.text.length ≤ h0.text.length) : splitCond cur h0 = true := by
  simp only [splitCond, Bool.or_eq_true, decide_eq_true_eq] at hsp ⊢
  rcases hsp with ((hsp | hsp) | hsp) | hsp
  · exact Or.inl (Or.inl (Or.inl (by rw [h1]; exact hsp)))
  · exact Or.inl (Or.inl (Or.inr hsp))
  · exact Or.inl (Or.inr (by omega))
  · exact Or.inr (by rw [h2]; exact hsp)

theorem mergeAux_props : ∀ (rest : List Seg) (cur : Seg),
    wsGuarded cur.text → wsFreeSegs rest →
    (∀ seg ∈ mergeAux cur rest, wsGuarded seg.text) ∧
    (∃ h0 t0, mergeAux cur rest = h0 :: t0 ∧ h0.speaker = cur.speaker ∧
      h0.start = cur.start ∧ cur.text.length ≤ h0.text.length) ∧
    List.Chain' (fun a b => splitCond a b = true) (mergeAux cur rest) := by
  intro rest
  induction rest with
  | nil =>
    intro cur hq _
    have hclean : cleanChineseSpaces cur.text = cur.text :=
      cleanChineseSpaces_id_of_wsGuarded hq
    simp only [mergeAux, hclean]
    refine ⟨?_, ⟨cur, [], rfl, rfl, rfl, le_refl _⟩, ?_⟩
    · intro seg hseg
      simp only [List.mem_singleton] at hseg
      subst hseg
      exact hq
    · simp
  | cons s rest ih =>
    intro cur hq hfree
    have hfs : wsFree s.text := hfree s (List.mem_cons_self s rest)
    have hfrest : wsFreeSegs rest := fun seg hseg => hfree seg (List.mem_cons_of_mem _ hseg)
    simp only [mergeAux]
    by_cases hsp : splitCond cur s = true
    · rw [if_pos hsp]
      obtain ⟨hall, ⟨h0, t0, hM, hspk, hstart, hlen⟩, hchain⟩ :=
        ih s (wsGuarded_of_wsFree hfs) hfrest
      refine ⟨?_, ⟨cur, mergeAux s rest, rfl, rfl, rfl, le_refl _⟩, ?_⟩
      · intro seg hseg
        rcases List.mem_cons.mp hseg with hseg | hseg
        · subst hseg; exact hq
        · exact hall seg hseg
      · rw [hM]
        refine List.chain'_cons.mpr ⟨?_, hM ▸ hchain⟩
        exact splitCond_persist hsp hspk hstart hlen
    · rw [if_neg hsp]
      have hq2 : wsGuarded (extendSeg cur s).text := wsGuarded_smartJoin hq hfs
      obtain ⟨hall, ⟨h0, t0, hM, hspk, hstart, hlen⟩, hchain⟩ := ih (extendSeg cur s) hq2 hfrest
      refine ⟨hall, ⟨h0, t0, hM, hspk, hstart, ?_⟩, hchain⟩
      exact le_trans (smartJoin_length_ge_left cur.text s.text) hlen

theorem mergeAux_id_of_chain : ∀ (t0 : List Seg) (h0 : Seg),
    List.Chain' (fun a b => splitCond a b = true) (h0 :: t0) →
    (∀ seg ∈ h0 :: t0, wsGuarded seg.text) →
    mergeAux h0 t0 = h0 :: t0 := by
  intro t0
  induction t0 with
  | nil =>
    intro h0 _ hall
    have hq : wsGuarded h0.text := hall h0 (List.mem_singleton.mpr rfl)
    simp [mergeAux, cleanChineseSpaces_id_of_wsGuarded hq]
  | cons b t ih =>
    intro h0 hchain hall
    have hsp : splitCond h0 b = true := (List.chain'_cons.mp hchain).1
    simp only [mergeAux, if_pos hsp]
    rw [ih b (List.chain'_cons.mp hchain).2 (fun seg hseg => hall seg (List.mem_cons_of_mem _ hseg))]

/-! ## Claim C4 -/

/-- C4: Rule-based merge, scanning input chunks left-to-right with a current
segment, starts a new output segment exactly when at least one of the four
conditions of `startsNewSpec` holds (speaker change, sentence-terminal
punctuation of `{。！？.!?}`, joined length over 200 characters, gap over
1.5 s) and otherwise extends the current segment joining texts with smart
join (a single space iff both boundary characters are alphanumeric):
`mergeSegments` equals the claim's scan (up to the source's final-segment
cleanup), the source's join equals the claim's join, and the source's break
condition equals the claim's four-way disjunction. -/
theorem C4_merge_follows_claimed_conditions :
    (∀ S : List Seg, mergeSegments S = cleanLast (mergeSpec S)) ∧
    (∀ l r : List Char, smartJoinText l r = smartJoinSpec l r) ∧
    (∀ a b : Seg, splitCond a b = startsNewSpec a b) := by
  refine ⟨?_, smartJoin_eq_spec, splitCond_eq_spec⟩
  intro S
  cases S with
  | nil => rfl
  | cons s rest => exact mergeAux_eq_spec rest s

/-! ## Claim C5 -/

unseal Rat.add Rat.sub Rat.mul Rat.inv Rat.ofScientific in
/-- C5 (counterexample): the Chinese-space cleanup is not applied to every
merged segment.  On this two-chunk input the merge emits the first chunk's
text verbatim (`我是 老。`, with a space between two CJK characters), although
its cleanup-normalized form differs. -/
theorem C5_counterexample :
    mergeSegments
      [{ start := 0, stop := 1, text := "我是 老。".data, speaker := none },
       { start := 1, stop := 2, text := "a".data, speaker := none }] =
      [{ start := 0, stop := 1, text := "我是 老。".data, speaker := none },
       { start := 1, stop := 2, text := "a".data, speaker := none }] ∧
    cleanChineseSpaces "我是 老。".data ≠ "我是 老。".data := by
  decide

theorem mergeAux_getLast_clean : ∀ (rest : List Seg) (cur seg : Seg),
    (mergeAux cur rest).getLast? = some seg → cleanChineseSpaces seg.text = seg.text := by
  intro rest
  induction rest with
  | nil =>
    intro cur seg h
    simp only [mergeAux, List.getLast?_singleton, Option.some.injEq] at h
    subst h
    exact cleanChineseSpaces_idem cur.text
  | cons s rest ih =>
    intro cur seg h
    simp only [mergeAux] at h
    by_cases hsp : splitCond cur s = true
    · rw [if_pos hsp] at h
      cases hM : mergeAux s rest with
      | nil => exact absurd hM (mergeAux_ne_nil rest s)
      | cons b t =>
        rw [hM, List.getLast?_cons_cons] at h
        exact ih s seg (by rw [hM]; exact h)
    · rw [if_neg hsp] at h
      exact ih (extendSeg cur s) seg h

/-- C5 (amended): after the merge pass, the cleanup is applied only to the
final merged segment — for every input, the last segment of the merge output
has cleanup-normalized text (a fixpoint of `cleanChineseSpaces`); earlier
segments keep their joined text as-is (see the counterexample). -/
theorem C5_last_merged_segment_normalized : ∀ (S : List Seg) (seg : Seg),
    (mergeSegments S).getLast? = some seg → cleanChineseSpaces seg.text = seg.text := by
  intro S seg h
  cases S with
  | nil => simp [mergeSegments] at h
  | cons s rest => exact mergeAux_getLast_clean rest s seg h

unseal Rat.add Rat.sub Rat.mul Rat.inv Rat.ofScientific in
/-- C5 (witness for the amended theorem at a concrete input). -/
theorem C5_last_merged_segment_normalized_witness :
    cleanChineseSpaces ({ start := (1 : ℚ), stop := 2, text := "a".data, speaker := none } : Seg).text =
      ({ start := (1 : ℚ), stop := 2, text := "a".data, speaker := none } : Seg).text :=
  C5_last_merged_segment_normalized
    [{ start := 0, stop := 1, text := "我是 老。".data, speaker := none },
     { start := 1, stop := 2, text := "a".data, speaker := none }]
    { start := 1, stop := 2, text := "a".data, speaker := none }
    (by decide)

/-! ## Claim C6 -/

set_option maxRecDepth 100000 in
unseal Rat.add Rat.sub Rat.mul Rat.inv Rat.ofScientific in
/-- C6 (counterexample): rule-based merge is not idempotent under the default
parameters.  The first pass splits (198 + 3 = 201 > 200 characters) and then
shrinks the final segment's text to `我是` through the cleanup; in the second
pass 198 + 2 = 200 does not exceed the limit, so the two segments merge into
one. -/
theorem C6_counterexample :
    mergeSegments (mergeSegments
      [{ start := 0, stop := 1, text := List.replicate 198 'a', speaker := none },
       { start := 1, stop := 2, text := "我 是".data, speaker := none }]) ≠
    mergeSegments
      [{ start := 0, stop := 1, text := List.replicate 198 'a', speaker := none },
       { start := 1, stop := 2, text := "我 是".data, speaker := none }] := by
  decide

/-- C6 (amended): rule-based merge is idempotent under the default parameters
for every input whose chunk texts contain no whitespace characters (then the
final cleanup cannot shrink a merged text below a split threshold; in general
idempotence fails, see the counterexample). -/
theorem C6_merge_idempotent_on_wsFree : ∀ S : List Seg, wsFreeSegs S →
    mergeSegments (mergeSegments S) = mergeSegments S := by
  intro S hfree
  cases S with
  | nil => rfl
  | cons s rest =>
    have hq : wsGuarded s.text := wsGuarded_of_wsFree (hfree s (List.mem_cons_self s rest))
    have hfrest : wsFreeSegs rest := fun seg hseg => hfree seg (List.mem_cons_of_mem _ hseg)
    obtain ⟨hall, ⟨h0, t0, hM, -, -, -⟩, hchain⟩ := mergeAux_props rest s hq hfrest
    show mergeSegments (mergeAux s rest) = mergeAux s rest
    rw [hM]
    show mergeAux h0 t0 = h0 :: t0
    refine mergeAux_id_of_chain t0 h0 ?_ ?_
    · rw [hM] at hchain
      exact hchain
    · intro seg hseg
      refine hall seg ?_
      rw [hM]
      exact hseg

unseal Rat.add Rat.sub Rat.mul Rat.inv Rat.ofScientific in
/-- C6 (witness for the amended theorem at a concrete whitespace-free
input). -/
theorem C6_merge_idempotent_on_wsFree_witness :
    mergeSegments (mergeSegments
      [{ start := 0, stop := 1, text := "Hello".data, speaker := none },
       { start := (11 : ℚ) / 10, stop := 2, text := "world.".data, speaker := none },
       { start := 4, stop := 5, text := "你好".data, speaker := none }]) =
    mergeSegments
      [{ start := 0, stop := 1, text := "Hello".data, speaker := none },
       { start := (11 : ℚ) / 10, stop := 2, text := "world.".data, speaker := none },
       { start := 4, stop := 5, text := "你好".data, speaker := none }] :=
  C6_merge_idempotent_on_wsFree
    [{ start := 0, stop := 1, text := "Hello".data, speaker := none },
     { start := (11 : ℚ) / 10, stop := 2, text := "world.".data, speaker := none },
     { start := 4, stop := 5, text := "你好".data, speaker := none }]
    (by decide)

/-! ## Claim C7 -/

unseal Rat.add Rat.sub Rat.mul Rat.inv Rat.ofScientific in
/-- C7: `generateSRT` emits one block per segment of the form index, newline,
`HH:MM:SS,mmm --> HH:MM:SS,mmm`, newline, text, newline, with 1-based indices
and a blank line between blocks (`srtBlockSpec` is the claim's block shape,
with `mmm = floor((seconds % 1) * 1000)`); in particular the segment
`{start: 61.5, end: 62.001, text: "hi"}` at index 0 yields the block
`"1\n00:01:01,500 --> 00:01:02,001\nhi\n"`. -/
theorem C7_generateSRT_blocks :
    (∀ segs : List Seg,
      generateSRT segs = String.intercalate "\n" (segs.mapIdx srtBlockSpec)) ∧
    generateSRT [{ start := (123 : ℚ) / 2, stop := (62001 : ℚ) / 1000,
                   text := "hi".data, speaker := none }] =
      "1\n00:01:01,500 --> 00:01:02,001\nhi\n" :=
  ⟨fun _ => rfl, by decide⟩

/-! ## Claim C3 -/

theorem balance_key_inj : ∀ (bs : BalanceTable),
    (bs.map Prod.fst).Nodup → ∀ p ∈ bs, ∀ q ∈ bs, p.1 = q.1 → p = q := by
  intro bs
  induction bs with
  | nil => intro _ p hp _ _ _; cases hp
  | cons a rest ih =>
    intro hnd p hp q hq hpq
    have hnotin : a.1 ∉ rest.map Prod.fst := (List.nodup_cons.mp hnd).1
    rcases List.mem_cons.mp hp with heq | hp2
    · rcases List.mem_cons.mp hq with heq2 | hq2
      · rw [heq, heq2]
      · exfalso
        apply hnotin
        have h1 : a.1 = q.1 := by rw [← heq]; exact hpq
        rw [h1]
        exact List.mem_map_of_mem Prod.fst hq2
    · rcases List.mem_cons.mp hq with heq2 | hq2
      · exfalso
        apply hnotin
        have h1 : a.1 = p.1 := by rw [← heq2]; exact hpq.symm
        rw [h1]
        exact List.mem_map_of_mem Prod.fst hp2
      · exact ih (List.nodup_cons.mp hnd).2 p hp2 q hq2 hpq

theorem condDeductAffected_eq_one : ∀ (bs : BalanceTable) (u : String) (m b : ℚ),
    (bs.map Prod.fst).Nodup → lookupBalance u bs = some b → m ≤ b →
    condDeductAffected u m bs = 1 := by
  intro bs
  induction bs with
  | nil => intro u m b _ hfind; simp [lookupBalance] at hfind
  | cons a rest ih =>
    intro u m b hnd hfind hmb
    have hnotin : a.1 ∉ rest.map Prod.fst := (List.nodup_cons.mp hnd).1
    have hndr : (rest.map Prod.fst).Nodup := (List.nodup_cons.mp hnd).2
    by_cases hkey : (a.1 == u) = true
    · have hb : a.2 = b := by
        have h2 : Option.map Prod.snd (some a) = some b := by
          simpa only [lookupBalance,
            @List.find?_cons_of_pos _ (fun p => p.1 == u) a rest hkey] using hfind
        simpa using h2
      have hrest0 : (rest.filter fun p => p.1 == u && decide (m ≤ p.2)) = [] := by
        apply List.filter_eq_nil_iff.mpr
        intro p hp
        have hpu : (p.1 == u) = false := by
          by_contra hcontra
          rw [Bool.not_eq_false, beq_iff_eq] at hcontra
          apply hnotin
          rw [beq_iff_eq.mp hkey, ← hcontra]
          exact List.mem_map_of_mem Prod.fst hp
        simp [hpu]
      have hhead : (a.1 == u && decide (m ≤ a.2)) = true := by
        simp [hkey, hb, hmb]
      simp [condDeductAffected, List.filter_cons, hhead, hrest0]
    · have hfind2 : lookupBalance u rest = some b := by
        simpa only [lookupBalance,
          @List.find?_cons_of_neg _ (fun p => p.1 == u) a rest hkey] using hfind
      have hkeyf : (a.1 == u) = false := by simpa using hkey
      have hhead : (a.1 == u && decide (m ≤ a.2)) = false := by
        simp [hkeyf]
      simp only [condDeductAffected, List.filter_cons, hhead]
      simp only [Bool.false_eq_true, if_false]
      exact ih u m b hndr hfind2 hmb

theorem condDeductUpdate_nonneg {bs : BalanceTable} (h : ∀ p ∈ bs, 0 ≤ p.2)
    (u : String) (m : ℚ) : ∀ p ∈ condDeductUpdate u m bs, 0 ≤ p.2 := by
  intro p hp
  simp only [condDeductUpdate, List.mem_map] at hp
  obtain ⟨q, hq, hpq⟩ := hp
  by_cases hcond : q.1 = u ∧ m ≤ q.2
  · rw [if_pos hcond] at hpq
    subst hpq
    have := h q hq
    have := hcond.2
    simp only []
    linarith
  · rw [if_neg hcond] at hpq
    subst hpq
    exact h q hq

/-- C3: `deductBalance` returns `ok = false` without mutation when the
balance is below `m`, otherwise decreases the balance by `m` through the
conditional update guarded by `minutes_balance ≥ m`; and no sequence of
atomic conditional deductions (the writes of any interleaving of concurrent
`deduct` calls) drives any balance below zero. -/
theorem C3_deductBalance_guarded :
    (∀ (bs : BalanceTable) (u : String) (m b : ℚ),
      lookupBalance u bs = some b → b < m → deductBalance u m bs = (false, bs)) ∧
    (∀ (bs : BalanceTable) (u : String) (m b : ℚ),
      (bs.map Prod.fst).Nodup → lookupBalance u bs = some b → m ≤ b →
      deductBalance u m bs = (true, condDeductUpdate u m bs)) ∧
    (∀ (ops : List (String × ℚ)) (bs : BalanceTable),
      (∀ p ∈ bs, 0 ≤ p.2) → ∀ p ∈ condDeductMany ops bs, 0 ≤ p.2) := by
  refine ⟨?_, ?_, ?_⟩
  · intro bs u m b hfind hlt
    simp only [deductBalance, hfind, if_pos hlt]
  · intro bs u m b hnd hfind hle
    have hnlt : ¬ b < m := not_lt.mpr hle
    simp only [deductBalance, hfind, if_neg hnlt,
      condDeductAffected_eq_one bs u m b hnd hfind hle]
    simp
  · intro ops
    induction ops with
    | nil => intro bs h; exact h
    | cons op rest ih =>
      intro bs h
      exact ih (condDeductUpdate op.1 op.2 bs) (condDeductUpdate_nonneg h op.1 op.2)

unseal Rat.add Rat.sub Rat.mul Rat.inv Rat.ofScientific in
/-- C3 (witness): balance 10, deduct 12 fails without mutation; deduct 7
succeeds leaving 3; two racing deductions of 7 from balance 10 leave the
final balance at 3 ≥ 0. -/
theorem C3_deductBalance_guarded_witness :
    deductBalance "u" 12 [("u", (10 : ℚ))] = (false, [("u", (10 : ℚ))]) ∧
    deductBalance "u" 7 [("u", (10 : ℚ))] = (true, condDeductUpdate "u" 7 [("u", (10 : ℚ))]) ∧
    0 ≤ (("u", (3 : ℚ)) : String × ℚ).2 :=
  ⟨C3_deductBalance_guarded.1 [("u", (10 : ℚ))] "u" 12 10 (by decide) (by decide),
   C3_deductBalance_guarded.2.1 [("u", (10 : ℚ))] "u" 7 10 (by decide) (by decide) (by decide),
   C3_deductBalance_guarded.2.2 [("u", 7), ("u", 7)] [("u", (10 : ℚ))]
     (by decide) ("u", (3 : ℚ)) (by decide)⟩

/-! ## Claim C8 -/

theorem pollGo_attempts_le : ∀ (r n : ℕ) (jobId : String) (f : ℕ → PollResp)
    (isGen : Bool) (llm : Option (List Seg → List Seg)),
    (pollGo jobId f isGen llm r n).2 ≤ n + r := by
  intro r
  induction r with
  | zero => intro n jobId f isGen llm; simp [pollGo]
  | succ r ih =>
    intro n jobId f isGen llm
    simp only [pollGo]
    by_cases hok : (f (n + 1)).ok = false
    · rw [if_pos hok]
      omega
    · rw [if_neg hok]
      by_cases hact : (f (n + 1)).status = some "active"
      · rw [if_pos hact]
        have := ih (n + 1) jobId f isGen llm
        omega
      · rw [if_neg hact]
        cases hcont : (f (n + 1)).content with
        | some c => simp only [hcont]; omega
        | none =>
          simp only [hcont]
          have := ih (n + 1) jobId f isGen llm
          omega

theorem pollGo_timeout : ∀ (r n : ℕ) (jobId : String) (f : ℕ → PollResp)
    (isGen : Bool) (llm : Option (List Seg → List Seg)),
    (∀ k, n + 1 ≤ k → k ≤ n + r → pollSkips f k) →
    pollGo jobId f isGen llm r n =
      (.error (mkTimeoutMsg jobId supadataMaxPollAttempts), n + r) := by
  intro r
  induction r with
  | zero => intro n jobId f isGen llm _; simp [pollGo]
  | succ r ih =>
    intro n jobId f isGen llm hskip
    obtain ⟨hok, hrest⟩ := hskip (n + 1) (by omega) (by omega)
    have hok2 : ¬ (f (n + 1)).ok = false := by simp [hok]
    simp only [pollGo, if_neg hok2]
    have htail : pollGo jobId f isGen llm r (n + 1) =
        (.error (mkTimeoutMsg jobId supadataMaxPollAttempts), n + 1 + r) :=
      ih (n + 1) jobId f isGen llm (fun k h1 h2 => hskip k (by omega) (by omega))
    by_cases hact : (f (n + 1)).status = some "active"
    · rw [if_pos hact, htail]
      exact congrArg _ (by omega)
    · rw [if_neg hact]
      rcases hrest with hact2 | hcont
      · exact absurd hact2 hact
      · simp only [hcont, htail]
        exact congrArg _ (by omega)

theorem pollGo_terminal : ∀ (r n k : ℕ) (c : SupaContent) (jobId : String)
    (f : ℕ → PollResp) (isGen : Bool) (llm : Option (List Seg → List Seg)),
    n + 1 ≤ k → k ≤ n + r → (∀ j, n + 1 ≤ j → j < k → pollSkips f j) →
    (f k).ok = true → (f k).status ≠ some "active" → (f k).content = some c →
    pollGo jobId f isGen llm r n =
      (.ok (parseResponse { content := c, lang := (f k).lang } isGen llm), k) := by
  intro r
  induction r with
  | zero => intro n k c jobId f isGen llm hk1 hk2; omega
  | succ r ih =>
    intro n k c jobId f isGen llm hk1 hk2 hwin hok hact hcont
    by_cases hkeq : k = n + 1
    · subst hkeq
      have hok2 : ¬ (f (n + 1)).ok = false := by simp [hok]
      simp only [pollGo, if_neg hok2, if_neg hact, hcont]
    · obtain ⟨hok1, hrest⟩ := hwin (n + 1) (by omega) (by omega)
      have hok2 : ¬ (f (n + 1)).ok = false := by simp [hok1]
      simp only [pollGo, if_neg hok2]
      have htail : pollGo jobId f isGen llm r (n + 1) =
          (.ok (parseResponse { content := c, lang := (f k).lang } isGen llm), k) :=
        ih (n + 1) k c jobId f isGen llm (by omega) (by omega)
          (fun j h1 h2 => hwin j (by omega) h2) hok hact hcont
      by_cases hact1 : (f (n + 1)).status = some "active"
      · rw [if_pos hact1]
        exact htail
      · rw [if_neg hact1]
        rcases hrest with h | h
        · exact absurd h hact1
        · simp only [h]
          exact htail

theorem pollGo_ok_content : ∀ (r n : ℕ) (jobId : String) (f : ℕ → PollResp)
    (isGen : Bool) (llm : Option (List Seg → List Seg))
    (res : TranscriptResult) (m : ℕ),
    pollGo jobId f isGen llm r n = (Except.ok res, m) →
    ∃ k c, n + 1 ≤ k ∧ k ≤ n + r ∧ (f k).content = some c ∧
      res = parseResponse { content := c, lang := (f k).lang } isGen llm := by
  intro r
  induction r with
  | zero =>
    intro n jobId f isGen llm res m h
    simp [pollGo] at h
  | succ r ih =>
    intro n jobId f isGen llm res m h
    simp only [pollGo] at h
    by_cases hok : (f (n + 1)).ok = false
    · rw [if_pos hok] at h
      simp at h
    · rw [if_neg hok] at h
      by_cases hact : (f (n + 1)).status = some "active"
      · rw [if_pos hact] at h
        obtain ⟨k, c, h1, h2, h3, h4⟩ := ih (n + 1) jobId f isGen llm res m h
        exact ⟨k, c, by omega, by omega, h3, h4⟩
      · rw [if_neg hact] at h
        cases hcont : (f (n + 1)).content with
        | some c =>
          simp only [hcont, Prod.mk.injEq] at h
          refine ⟨n + 1, c, by omega, by omega, hcont, ?_⟩
          have := h.1
          simp only [Except.ok.injEq] at this
          exact this.symm
        | none =>
          simp only [hcont] at h
          obtain ⟨k, c, h1, h2, h3, h4⟩ := ih (n + 1) jobId f isGen llm res m h
          exact ⟨k, c, by omega, by omega, h3, h4⟩

theorem processTask_error_fails : ∀ (now : ℚ) (job : TaskJobData) (e : String)
    (st : ExecState), ∀ r ∈ (processTask now job (.error e) st).rows,
    r.id = job.taskId → r.status = TaskStatus.failed ∧ r.error = some e := by
  intro now job e st r hr hid
  simp only [processTask, updateTaskStatus, List.mem_map] at hr
  obtain ⟨p, hp, hpr⟩ := hr
  by_cases hpid : p.id = job.taskId
  · rw [if_pos hpid] at hpr
    subst hpr
    exact ⟨rfl, rfl⟩
  · rw [if_neg hpid] at hpr
    subst hpr
    exact absurd hid hpid

/-- C8: `pollJob` performs at most 120 attempts, each preceded by one
5000 ms sleep (`supadataPollIntervalMs`), keeps polling while a response is
`status: "active"` (or lacks a `content` field), returns the parsed result
exactly when a polled response carries a `content` field, and after
exhausting all 120 attempts without one it returns the timeout error; a
provider error makes `processTask` mark the task `failed`. -/
theorem C8_pollJob_budget_and_terminal :
    (supadataMaxPollAttempts = 120 ∧ supadataPollIntervalMs = 5000) ∧
    (∀ (jobId : String) (f : ℕ → PollResp) (isGen : Bool)
      (llm : Option (List Seg → List Seg)),
      (pollJob jobId f isGen llm).2 ≤ supadataMaxPollAttempts) ∧
    (∀ (jobId : String) (f : ℕ → PollResp) (isGen : Bool)
      (llm : Option (List Seg → List Seg)),
      (∀ k, 1 ≤ k → k ≤ supadataMaxPollAttempts → pollSkips f k) →
      pollJob jobId f isGen llm =
        (.error (mkTimeoutMsg jobId supadataMaxPollAttempts), supadataMaxPollAttempts)) ∧
    (∀ (jobId : String) (f : ℕ → PollResp) (isGen : Bool)
      (llm : Option (List Seg → List Seg)) (k : ℕ) (c : SupaContent),
      1 ≤ k → k ≤ supadataMaxPollAttempts →
      (∀ j, 1 ≤ j → j < k → pollSkips f j) →
      (f k).ok = true → (f k).status ≠ some "active" → (f k).content = some c →
      pollJob jobId f isGen llm =
        (.ok (parseResponse { content := c, lang := (f k).lang } isGen llm), k)) ∧
    (∀ (jobId : String) (f : ℕ → PollResp) (isGen : Bool)
      (llm : Option (List Seg → List Seg)) (res : TranscriptResult) (m : ℕ),
      pollJob jobId f isGen llm = (Except.ok res, m) →
      ∃ k c, 1 ≤ k ∧ k ≤ supadataMaxPollAttempts ∧ (f k).content = some c ∧
        res = parseResponse { content := c, lang := (f k).lang } isGen llm) ∧
    (∀ (now : ℚ) (job : TaskJobData) (e : String) (st : ExecState),
      ∀ r ∈ (processTask now job (.error e) st).rows,
      r.id = job.taskId → r.status = TaskStatus.failed ∧ r.error = some e) := by
  refine ⟨⟨rfl, rfl⟩, ?_, ?_, ?_, ?_, processTask_error_fails⟩
  · intro jobId f isGen llm
    exact pollGo_attempts_le supadataMaxPollAttempts 0 jobId f isGen llm
  · intro jobId f isGen llm hskip
    exact pollGo_timeout supadataMaxPollAttempts 0 jobId f isGen llm
      (fun k h1 h2 => hskip k h1 h2)
  · intro jobId f isGen llm k c h1 h2 hwin hok hact hcont
    exact pollGo_terminal supadataMaxPollAttempts 0 k c jobId f isGen llm h1 h2 hwin hok hact hcont
  · intro jobId f isGen llm res m h
    exact pollGo_ok_content supadataMaxPollAttempts 0 jobId f isGen llm res m h

/-- C8 (witness): an always-active provider exhausts the 120-attempt budget
and yields the timeout error; a provider answering with content on the first
poll terminates after one attempt with the parsed result. -/
theorem C8_pollJob_budget_and_terminal_witness :
    pollJob "j1" (fun _ =>
        { ok := true, errorText := "", status := some "active", content := none, lang := none })
        true none =
      (.error (mkTimeoutMsg "j1" supadataMaxPollAttempts), supadataMaxPollAttempts) ∧
    pollJob "j1" (fun _ =>
        { ok := true, errorText := "", status := none,
          content := some (SupaContent.str "hello".data), lang := some "en" })
        true none =
      (.ok (parseResponse
        { content := SupaContent.str "hello".data, lang := some "en" } true none), 1) :=
  ⟨C8_pollJob_budget_and_terminal.2.2.1 "j1" _ true none
      (fun k h1 h2 => ⟨rfl, Or.inl rfl⟩),
   C8_pollJob_budget_and_terminal.2.2.2.1 "j1" _ true none 1
      (SupaContent.str "hello".data) (le_refl 1) (by decide)
      (fun j h1 h2 => absurd h2 (by omega)) rfl (by decide) rfl⟩

/-! ## Claim C9 -/

theorem taskrow_id_inj : ∀ (rows : List TaskRow),
    (rows.map TaskRow.id).Nodup → ∀ p ∈ rows, ∀ q ∈ rows, p.id = q.id → p = q := by
  intro rows
  induction rows with
  | nil => intro _ p hp _ _ _; cases hp
  | cons a rest ih =>
    intro hnd p hp q hq hpq
    have hnotin : a.id ∉ rest.map TaskRow.id := (List.nodup_cons.mp hnd).1
    rcases List.mem_cons.mp hp with heq | hp2
    · rcases List.mem_cons.mp hq with heq2 | hq2
      · rw [heq, heq2]
      · exfalso
        apply hnotin
        have h1 : a.id = q.id := by rw [← heq]; exact hpq
        rw [h1]
        exact List.mem_map_of_mem TaskRow.id hq2
    · rcases List.mem_cons.mp hq with heq2 | hq2
      · exfalso
        apply hnotin
        have h1 : a.id = p.id := by rw [← heq2]; exact hpq.symm
        rw [h1]
        exact List.mem_map_of_mem TaskRow.id hp2
      · exact ih (List.nodup_cons.mp hnd).2 p hp2 q hq2 hpq

theorem stuck_filter_pred_iff (now : ℚ) (q : TaskRow) :
    (q.status == TaskStatus.processing && decide (q.updatedAt < now - taskTimeoutMs)) = true ↔
    isStuck now q := by
  simp only [Bool.and_eq_true, beq_iff_eq, decide_eq_true_eq, isStuck]
  constructor
  · rintro ⟨h1, h2⟩
    exact ⟨h1, by linarith⟩
  · rintro ⟨h1, h2⟩
    exact ⟨h1, by linarith⟩

/-- C9: one sweep of the stuck-task cleaner marks a task failed (with the
non-empty timeout error message) iff it has `status = processing` and
`now - updated_at` exceeds the 10-minute threshold; all other tasks are left
unchanged.  (`sweepOne` is the claim's per-row action; the id-based batch
update of the source coincides with it on tables with distinct primary
keys.) -/
theorem C9_sweeper_marks_stuck_iff :
    (∀ (now : ℚ) (rows : List TaskRow), (rows.map TaskRow.id).Nodup →
      cleanupStuckTasks now rows = rows.map (sweepOne now)) ∧
    (∀ (now : ℚ) (r : TaskRow), sweepOne now r ≠ r ↔ isStuck now r) ∧
    (∀ (now : ℚ) (r : TaskRow), isStuck now r →
      (sweepOne now r).status = TaskStatus.failed ∧
      (sweepOne now r).error = some stuckTimeoutMsg ∧ stuckTimeoutMsg ≠ "") := by
  refine ⟨?_, ?_, ?_⟩
  · intro now rows hnd
    apply List.map_congr_left
    intro r hr
    have hmem : (r.id ∈ ((rows.filter fun q =>
        q.status == TaskStatus.processing &&
        decide (q.updatedAt < now - taskTimeoutMs)).map TaskRow.id)) ↔ isStuck now r := by
      constructor
      · intro hin
        obtain ⟨q, hqf, hqid⟩ := List.mem_map.mp hin
        obtain ⟨hqrows, hqpred⟩ := List.mem_filter.mp hqf
        have hq : isStuck now q := (stuck_filter_pred_iff now q).mp hqpred
        have : q = r := taskrow_id_inj rows hnd q hqrows r hr hqid
        exact this ▸ hq
      · intro hstuck
        apply List.mem_map_of_mem TaskRow.id
        exact List.mem_filter.mpr ⟨hr, (stuck_filter_pred_iff now r).mpr hstuck⟩
    by_cases hstuck : isStuck now r
    · simp only [sweepOne, if_pos hstuck, if_pos (hmem.mpr hstuck)]
    · simp only [sweepOne, if_neg hstuck, if_neg (fun hin => hstuck (hmem.mp hin))]
  · intro now r
    constructor
    · intro hne
      by_contra hns
      rw [sweepOne, if_neg hns] at hne
      exact hne rfl
    · intro hs heq
      rw [sweepOne, if_pos hs] at heq
      have hstat : TaskStatus.failed = r.status := by
        simpa using congrArg TaskRow.status heq
      rw [hs.1] at hstat
      exact absurd hstat (by decide)
  · intro now r hs
    rw [sweepOne, if_pos hs]
    exact ⟨rfl, rfl, by decide⟩

unseal Rat.add Rat.sub Rat.mul Rat.inv Rat.ofScientific in
/-- C9 (witness): at `now = 660000` ms a processing task last updated at time
0 (11 min ago) is swept, while a processing task updated 9 min ago and a
pending task are untouched. -/
theorem C9_sweeper_marks_stuck_iff_witness :
    cleanupStuckTasks 660000
      [{ id := "a", userId := none, anonId := none, isTrial := false,
         status := TaskStatus.processing, durationSec := none, costMinutes := none,
         error := none, updatedAt := 0 },
       { id := "b", userId := none, anonId := none, isTrial := false,
         status := TaskStatus.processing, durationSec := none, costMinutes := none,
         error := none, updatedAt := 120000 },
       { id := "c", userId := none, anonId := none, isTrial := false,
         status := TaskStatus.pending, durationSec := none, costMinutes := none,
         error := none, updatedAt := 0 }] =
    List.map (sweepOne 660000)
      [{ id := "a", userId := none, anonId := none, isTrial := false,
         status := TaskStatus.processing, durationSec := none, costMinutes := none,
         error := none, updatedAt := 0 },
       { id := "b", userId := none, anonId := none, isTrial := false,
         status := TaskStatus.processing, durationSec := none, costMinutes := none,
         error := none, updatedAt := 120000 },
       { id := "c", userId := none, anonId := none, isTrial := false,
         status := TaskStatus.pending, durationSec := none, costMinutes := none,
         error := none, updatedAt := 0 }] :=
  C9_sweeper_marks_stuck_iff.1 660000 _ (by decide)

/-! ## Claim C10 -/

/-- C10: when the provider returns plain-string content, `parseResponse`
yields exactly one segment `{start: 0, end: 0, speaker: null}` carrying the
raw string and duration 0, and the executor's cost computation assigns such a
YouTube task `cost_minutes = ceil(0 / 60) = 0` even when
`is_generated = true`. -/
theorem C10_string_content_single_segment :
    (∀ (s : List Char) (lang : Option String) (isGen : Bool)
      (llm : Option (List Seg → List Seg)),
      parseResponse { content := SupaContent.str s, lang := lang } isGen llm =
        { segments := [{ start := 0, stop := 0, text := s, speaker := none }],
          duration := 0, language := langOrUnknown lang, isGenerated := isGen }) ∧
    (∀ (s : List Char) (lang : Option String) (isGen : Bool)
      (llm : Option (List Seg → List Seg)),
      taskCost SourceType.youtube
        (parseResponse { content := SupaContent.str s, lang := lang } isGen llm) = 0) := by
  refine ⟨fun _ _ _ _ => rfl, ?_⟩
  intro s lang isGen llm
  cases isGen <;> simp [taskCost, parseResponse]

/-! ## Claim C1 -/

unseal Rat.add Rat.sub Rat.mul Rat.inv Rat.ofScientific in
/-- C1 (code_bug evaluation): an authenticated, non-trial upload task whose
provider call succeeds with a 90-second duration is marked `succeeded` with
`cost_minutes = ceil(90/60) = 2 > 0`, yet the executor run attempts no
balance deduction whatsoever (`deductCalls` stays empty — `processTask`
contains no call to `BillingService.deductBalance`; the repository's only
deduction site is the Deepgram webhook handler). -/
theorem C1_executor_attempts_no_deduction :
    processTask 1000 { taskId := "t1", sourceType := SourceType.upload }
      (.ok { segments := [], duration := 90, language := "en", isGenerated := true })
      { rows := [{ id := "t1", userId := some "u1", anonId := none, isTrial := false,
                   status := TaskStatus.pending, durationSec := none, costMinutes := none,
                   error := none, updatedAt := 0 }],
        transcripts := [], trialUsages := [], deductCalls := [] } =
    { rows := [{ id := "t1", userId := some "u1", anonId := none, isTrial := false,
                 status := TaskStatus.succeeded, durationSec := some 90, costMinutes := some 2,
                 error := none, updatedAt := 1000 }],
      transcripts := ["t1"], trialUsages := [], deductCalls := [] } ∧
    (0 : ℚ) < 2 := by
  decide

/-! ## Claim C2 -/

/-- C2 (code_bug evaluation): `updateTaskStatus` is an unconditional update
matched only on the task id — there is no `WHERE status = pending` guard.
On a redelivered job whose row is already `failed`, the pending → processing
step moves the row back to `processing` (a backward transition) instead of
updating zero rows and aborting. -/
theorem C2_status_update_is_unguarded :
    updateTaskStatus 1000 "t1" TaskStatus.processing none none none
      [{ id := "t1", userId := some "u1", anonId := none, isTrial := false,
         status := TaskStatus.failed, durationSec := none, costMinutes := none,
         error := some "boom", updatedAt := 500 }] =
      [{ id := "t1", userId := some "u1", anonId := none, isTrial := false,
         status := TaskStatus.processing, durationSec := none, costMinutes := none,
         error := some "boom", updatedAt := 1000 }] ∧
    updateTaskStatus 1000 "t1" TaskStatus.processing none none none
      [{ id := "t1", userId := some "u1", anonId := none, isTrial := false,
         status := TaskStatus.failed, durationSec := none, costMinutes := none,
         error := some "boom", updatedAt := 500 }] ≠
      [{ id := "t1", userId := some "u1", anonId := none, isTrial := false,
         status := TaskStatus.failed, durationSec := none, costMinutes := none,
         error := some "boom", updatedAt := 500 }] := by
  decide
